import Mathlib

/-
  Verification of the core of BH_Scrubber (bh_Scrubber.py): a shallow
  embedding of the run-length-compressed spreadsheet row model, the
  calendar-header/date-map builder, the holiday table parser, the style
  registry, and the archive save sequence, with theorems settling the
  specification's claims about them.
-/

namespace BHScrubber

/-! ## Attribute dictionaries

XML attribute sets and HTML tag attribute lists are modelled as
association lists with Python-dict semantics: later duplicate keys win
on construction, lookup returns the stored value. -/

/-- Python `dict(attrs).get(k)`: the value of the last occurrence of `k`. -/
def dget (attrs : List (String × String)) (k : String) : Option String :=
  (attrs.reverse.find? (fun p => p.1 == k)).map (fun p => p.2)

/-! ## Compressed Row Model (ODSHandler cell tree)

A `Cell` embeds a `table:table-cell` element: the
`table:number-columns-repeated` attribute (as an optional count, absent
meaning 1), the remaining attributes (style name, value type, ...) and
the text of its `text:p` children. -/

structure Cell where
  repeated : Option Nat
  attrs : List (String × String)
  paras : List String
  deriving Repr, DecidableEq

abbrev Row := List Cell

abbrev Sheet := List Row

/-- `int(repeated) if repeated else 1`: the run length of a cell. -/
def cellCount (c : Cell) : Nat := c.repeated.getD 1

/-- Sum of run lengths: the row's logical width. -/
def rowWidth (r : Row) : Nat := (r.map cellCount).sum

/-- `cell.find('text:p').text`, with `""` when the paragraph is absent
(as in `expand_row`). -/
def cellText (c : Cell) : String := (c.paras.head?).getD ""

/-- The cell's `table:style-name` attribute. -/
def cellStyle (c : Cell) : Option String := dget c.attrs "table:style-name"

/-- `ODSHandler.expand_row`: flattens a row with repeated columns into
the list of per-logical-column text values. -/
def expand_row (r : Row) : List String :=
  (r.map (fun c => List.replicate (cellCount c) (cellText c))).flatten

/-- The per-logical-column view of the style attribute, by the same
run expansion as `expand_row`. -/
def expandStyles (r : Row) : List (Option String) :=
  (r.map (fun c => List.replicate (cellCount c) (cellStyle c))).flatten

/-- The target cell created by the split branch of `get_cell_node`:
`ET.Element(table-cell, base_attribs)` where `base_attribs` is the
original attribute dict minus the repeat count.  Children (the text
paragraphs) are not copied. -/
def targetCell (c : Cell) : Cell := { repeated := none, attrs := c.attrs, paras := [] }

/-- The up-to-three replacement cells produced by the split branch of
`get_cell_node` for a run `c` split at offset `off`: a pre-run of
`off` columns, the width-1 target, and a post-run of the remainder,
with zero-width pre/post runs omitted. -/
def splitRun (c : Cell) (off : Nat) : List Cell :=
  (if 0 < off then [{ repeated := some off, attrs := c.attrs, paras := [] : Cell }] else []) ++
  [targetCell c] ++
  (if 0 < cellCount c - (off + 1) then
    [{ repeated := some (cellCount c - (off + 1)), attrs := c.attrs, paras := [] : Cell }]
  else [])

/-- The find/split loop of `ODSHandler.get_cell_node` (lines 312-348):
walks the cells accumulating the current column, and when the target
column falls inside a run either returns it directly (run length 1) or
splits the run in place.  Returns the located cell and the new cell
list. -/
def locateCells : List Cell → Nat → Option Cell × List Cell
  | [], _ => (none, [])
  | c :: rest, col =>
      if col < cellCount c then
        if 1 < cellCount c then
          (some (targetCell c), splitRun c col ++ rest)
        else
          (some c, c :: rest)
      else
        let r := locateCells rest (col - cellCount c)
        (r.1, c :: r.2)

/-- The single element appended by the auto-extend branch of
`get_cell_node`: a blank cell, carrying a repeat count only when more
than one column is missing. -/
def newBlankCell (missing : Nat) : Cell :=
  { repeated := if 1 < missing then some missing else none, attrs := [], paras := [] }

/-- `ODSHandler.get_cell_node(row_idx, col_idx, auto_extend)`: `None`
when the row index is out of range; otherwise extends the row when the
column is beyond the current width (or fails when `auto_extend` is
off), then runs the find/split loop.  Returns the located cell and the
updated sheet. -/
def get_cell_node (rows : Sheet) (rowIdx colIdx : Nat) (autoExtend : Bool) :
    Option Cell × Sheet :=
  match rows[rowIdx]? with
  | none => (none, rows)
  | some row =>
      if rowWidth row ≤ colIdx then
        if autoExtend then
          let row2 := row ++ [newBlankCell (colIdx - rowWidth row + 1)]
          let r := locateCells row2 colIdx
          (r.1, rows.set rowIdx r.2)
        else (none, rows)
      else
        let r := locateCells row colIdx
        (r.1, rows.set rowIdx r.2)

/-! ### Row model lemmas -/

lemma cellCount_some (n : Nat) (a : List (String × String)) (p : List String) :
    cellCount ⟨some n, a, p⟩ = n := rfl

lemma cellCount_none (a : List (String × String)) (p : List String) :
    cellCount ⟨none, a, p⟩ = 1 := rfl

lemma cellCount_targetCell (c : Cell) : cellCount (targetCell c) = 1 := rfl

lemma rowWidth_nil : rowWidth [] = 0 := rfl

lemma rowWidth_cons (c : Cell) (r : Row) : rowWidth (c :: r) = cellCount c + rowWidth r := by
  simp [rowWidth]

lemma rowWidth_append (a b : Row) : rowWidth (a ++ b) = rowWidth a + rowWidth b := by
  simp [rowWidth]

/-- The find/split loop steps over a leading block of cells whose total
width is below the target column. -/
lemma locateCells_append (pfx rest : List Cell) (o : Nat) :
    locateCells (pfx ++ rest) (rowWidth pfx + o) =
      ((locateCells rest o).1, pfx ++ (locateCells rest o).2) := by
  induction pfx with
  | nil => simp [rowWidth]
  | cons c pfx ih =>
      have h1 : ¬ (rowWidth (c :: pfx) + o < cellCount c) := by
        rw [rowWidth_cons]; omega
      have h2 : rowWidth (c :: pfx) + o - cellCount c = rowWidth pfx + o := by
        rw [rowWidth_cons]; omega
      simp [List.cons_append, locateCells, if_neg h1, h2, List.append_eq, ih]

lemma locateCells_split (c : Cell) (rest : List Cell) (o : Nat)
    (hk : 1 < cellCount c) (ho : o < cellCount c) :
    locateCells (c :: rest) o = (some (targetCell c), splitRun c o ++ rest) := by
  simp only [locateCells, if_pos ho, if_pos hk]

lemma rowWidth_splitRun (c : Cell) (o : Nat) (ho : o < cellCount c) :
    rowWidth (splitRun c o) = cellCount c := by
  unfold splitRun
  split_ifs <;>
    simp_all [rowWidth_append, rowWidth_cons, rowWidth_nil, cellCount_some,
      cellCount_targetCell, rowWidth] <;>
    omega

/-! ### Claims about `get_cell_node` -/

/-- C1: the claim asserts that after a split every logical column other
than the target keeps its original content and style.  The code copies
only the attribute dictionary into the replacement cells and drops the
text paragraphs, so on a width-2 run holding text "X" with style "S",
splitting at column 0 leaves column 1 (outside the split target) with
style "S" but text "" instead of "X": the claim fails on the code. -/
theorem claim1_split_loses_text :
    expand_row [⟨some 2, [("table:style-name", "S")], ["X"]⟩] = ["X", "X"] ∧
    (get_cell_node [[⟨some 2, [("table:style-name", "S")], ["X"]⟩]] 0 0 true).2 =
      [[⟨none, [("table:style-name", "S")], []⟩,
        ⟨some 1, [("table:style-name", "S")], []⟩]] ∧
    expand_row [⟨none, [("table:style-name", "S")], []⟩,
        ⟨some 1, [("table:style-name", "S")], []⟩] = ["", ""] ∧
    expandStyles [⟨none, [("table:style-name", "S")], []⟩,
        ⟨some 1, [("table:style-name", "S")], []⟩] = [some "S", some "S"] := by
  exact ⟨rfl, rfl, rfl, rfl⟩

/-- C2: when the target column falls inside a run of repeat-count `> 1`
at offset `o`, `get_cell_node` replaces that run in place (all other
runs keeping their order) by a pre-run of repeat-count `o`, a width-1
target run, and a post-run of the remainder, zero-width pre/post runs
omitted, and the row's logical width is unchanged. -/
theorem claim2_run_split (rows : Sheet) (rowIdx : Nat) (pfx sfx : List Cell) (c : Cell)
    (o : Nat) (ae : Bool)
    (hrow : rows[rowIdx]? = some (pfx ++ c :: sfx))
    (hk : 1 < cellCount c) (ho : o < cellCount c) :
    get_cell_node rows rowIdx (rowWidth pfx + o) ae =
      (some (targetCell c), rows.set rowIdx (pfx ++ (splitRun c o ++ sfx))) ∧
    (splitRun c o).map cellCount =
      (if 0 < o then [o] else []) ++ [1] ++
        (if o + 1 < cellCount c then [cellCount c - (o + 1)] else []) ∧
    rowWidth (pfx ++ (splitRun c o ++ sfx)) = rowWidth (pfx ++ c :: sfx) := by
  have hlt : ¬ (rowWidth (pfx ++ c :: sfx) ≤ rowWidth pfx + o) := by
    rw [rowWidth_append, rowWidth_cons]; omega
  refine ⟨?_, ?_, ?_⟩
  · unfold get_cell_node
    rw [hrow]
    simp only [if_neg hlt, locateCells_append, locateCells_split c sfx o hk ho]
  · have hpost : (0 < cellCount c - (o + 1)) ↔ (o + 1 < cellCount c) := by omega
    unfold splitRun
    simp only [hpost]
    split_ifs <;> simp [cellCount_some, cellCount_targetCell]
  · rw [rowWidth_append, rowWidth_append, rowWidth_splitRun c o ho, rowWidth_append,
      rowWidth_cons]

/-- Witness for C2 on the spec's scenario: a run of 10 blank cells
starting at column 5, located at column 7, becomes runs of repeat
counts 5, 2, 1, 7 with logical width 15 preserved. -/
theorem claim2_run_split_witness :
    get_cell_node [[⟨some 5, [], []⟩, ⟨some 10, [], []⟩]] 0 7 true =
      (some ⟨none, [], []⟩,
        [[⟨some 5, [], []⟩, ⟨some 2, [], []⟩, ⟨none, [], []⟩, ⟨some 7, [], []⟩]]) ∧
    rowWidth [⟨some 5, [], []⟩, ⟨some 2, [], []⟩, (⟨none, [], []⟩ : Cell),
      ⟨some 7, [], []⟩] = 15 := by
  have h := claim2_run_split [[⟨some 5, [], []⟩, ⟨some 10, [], []⟩]] 0
    [⟨some 5, [], []⟩] [] ⟨some 10, [], []⟩ 2 true rfl (by decide) (by decide)
  exact ⟨h.1, by decide⟩

/-- Auto-extension followed by the locate loop: the appended blank run
covering `o + 1` missing columns yields, after the split, a blank run
of `o` columns and a blank width-1 target (just the target when
`o = 0`). -/
lemma locateCells_extend (row : Row) (o : Nat) :
    locateCells (row ++ [newBlankCell (o + 1)]) (rowWidth row + o) =
      (some ⟨none, [], []⟩,
        row ++ (if o = 0 then [⟨none, [], []⟩]
          else [⟨some o, [], []⟩, ⟨none, [], []⟩])) := by
  rw [locateCells_append]
  by_cases h0 : o = 0
  · subst h0
    rfl
  · rw [if_neg h0]
    have hm1 : 1 < o + 1 := by omega
    have hpos : 0 < o := Nat.pos_of_ne_zero h0
    have hcc : cellCount (newBlankCell (o + 1)) = o + 1 := by
      simp only [newBlankCell, cellCount, if_pos hm1, Option.getD_some]
    have hk : 1 < cellCount (newBlankCell (o + 1)) := by omega
    have ho : o < cellCount (newBlankCell (o + 1)) := by omega
    rw [locateCells_split _ [] _ hk ho]
    simp [newBlankCell, if_pos hm1, splitRun, targetCell, hcc, if_pos hpos, cellCount_some]

/-- C3 counterexample: on a row of width 1, locating column 3 with
auto-extend does not leave the row as the original runs plus a single
blank run of repeat-count 3 (the shortfall); the appended run is split
by the locate step. -/
theorem claim3_counterexample :
    ¬ ((get_cell_node [[⟨none, [], []⟩]] 0 3 true).2 =
        [[⟨none, [], []⟩, ⟨some 3, [], []⟩]]) := by decide

/-- C3 (amended): for a column at or beyond the row's width, with
auto-extend off `get_cell_node` returns none and leaves the sheet
unchanged; with auto-extend on it appends a single blank run covering
the shortfall which the locate step then splits, so the final row is
the original runs followed by a blank run of repeat-count
`col - width` and a width-1 blank target run (just the target cell
when `col = width`), the new width is `col + 1`, and the target cell
is returned. -/
theorem claim3_auto_extend (rows : Sheet) (rowIdx colIdx : Nat) (row : Row)
    (hrow : rows[rowIdx]? = some row) (hcol : rowWidth row ≤ colIdx) :
    get_cell_node rows rowIdx colIdx false = (none, rows) ∧
    get_cell_node rows rowIdx colIdx true =
      (some ⟨none, [], []⟩,
        rows.set rowIdx (row ++
          (if colIdx = rowWidth row then [⟨none, [], []⟩]
           else [⟨some (colIdx - rowWidth row), [], []⟩, ⟨none, [], []⟩]))) ∧
    rowWidth (row ++
        (if colIdx = rowWidth row then [(⟨none, [], []⟩ : Cell)]
         else [⟨some (colIdx - rowWidth row), [], []⟩, ⟨none, [], []⟩])) =
      colIdx + 1 := by
  obtain ⟨o, rfl⟩ : ∃ o, colIdx = rowWidth row + o := ⟨colIdx - rowWidth row, by omega⟩
  have hsub : rowWidth row + o - rowWidth row = o := by omega
  have hcond : (rowWidth row + o = rowWidth row) ↔ (o = 0) := by omega
  refine ⟨?_, ?_, ?_⟩
  · unfold get_cell_node
    rw [hrow]
    simp only [if_pos hcol]
    simp
  · unfold get_cell_node
    rw [hrow]
    simp only [if_pos hcol, if_pos rfl, hsub, locateCells_extend row o, hcond]
    simp
  · rw [rowWidth_append]
    by_cases h0 : o = 0
    · simp [hcond, hsub, h0, rowWidth_cons, rowWidth_nil, cellCount_some, cellCount_none]
    · simp [hcond, hsub, h0, rowWidth_cons, rowWidth_nil, cellCount_some, cellCount_none]
      omega

/-- Witness for C3: a width-1 row extended to column 3 gains a blank
run of 2 and a blank target, width 4; with auto-extend off, nothing
happens. -/
theorem claim3_auto_extend_witness :
    get_cell_node [[⟨none, [], []⟩]] 0 3 false = (none, [[⟨none, [], []⟩]]) ∧
    get_cell_node [[⟨none, [], []⟩]] 0 3 true =
      (some ⟨none, [], []⟩,
        [[⟨none, [], []⟩, ⟨some 2, [], []⟩, ⟨none, [], []⟩]]) := by
  have h := claim3_auto_extend [[⟨none, [], []⟩]] 0 3 [⟨none, [], []⟩] rfl (by decide)
  exact ⟨h.1, h.2.1⟩

/-- C10: a row index at or beyond the number of rows makes
`get_cell_node` return none and leave the sheet unchanged, even when
auto-extend is on: rows are never created. -/
theorem claim10_missing_row (rows : Sheet) (rowIdx colIdx : Nat) (ae : Bool)
    (h : rows.length ≤ rowIdx) :
    get_cell_node rows rowIdx colIdx ae = (none, rows) := by
  unfold get_cell_node
  rw [List.getElem?_eq_none h]

/-- Witness for C10: row index 5 of a one-row sheet, with auto-extend
on. -/
theorem claim10_missing_row_witness :
    get_cell_node [[⟨none, [], []⟩]] 5 3 true = (none, [[⟨none, [], []⟩]]) :=
  claim10_missing_row [[⟨none, [], []⟩]] 5 3 true (by decide)

/-! ## Dates

`datetime` values carry no relevant time component in this flow, so a
date is a (year, month, day) triple; `timedelta(days=1)` becomes
`nextDay` under the Gregorian calendar rules (the leap rule is the one
spelled out in the script's own `is_leap`). -/

structure Date where
  year : Nat
  month : Nat
  day : Nat
  deriving Repr, DecidableEq

/-- The script's `is_leap` (Gregorian leap year rule). -/
def is_leap (y : Nat) : Bool := (y % 4 == 0 && y % 100 != 0) || (y % 400 == 0)

/-- Length of a Gregorian month. -/
def daysInMonth (y m : Nat) : Nat :=
  if m = 2 then (if is_leap y then 29 else 28)
  else if m = 4 ∨ m = 6 ∨ m = 9 ∨ m = 11 then 30 else 31

/-- `date + timedelta(days=1)`. -/
def nextDay (d : Date) : Date :=
  if d.day < daysInMonth d.year d.month then ⟨d.year, d.month, d.day + 1⟩
  else if d.month < 12 then ⟨d.year, d.month + 1, 1⟩
  else ⟨d.year + 1, 1, 1⟩

/-- `date + timedelta(days=n)`. -/
def addDays (d : Date) : Nat → Date
  | 0 => d
  | n + 1 => nextDay (addDays d n)

/-- Strict chronological (lexicographic) order on dates. -/
def dlt (a b : Date) : Prop :=
  a.year < b.year ∨
    (a.year = b.year ∧ (a.month < b.month ∨ (a.month = b.month ∧ a.day < b.day)))

lemma dlt_irrefl (a : Date) : ¬ dlt a a := by unfold dlt; omega

lemma dlt_trans {a b c : Date} (h1 : dlt a b) (h2 : dlt b c) : dlt a c := by
  unfold dlt at *; omega

lemma dlt_nextDay (d : Date) : dlt d (nextDay d) := by
  unfold nextDay
  split_ifs <;> simp [dlt]

lemma dlt_addDays (d : Date) (i k : Nat) : dlt (addDays d i) (addDays d (i + k + 1)) := by
  induction k with
  | zero => exact dlt_nextDay (addDays d i)
  | succ k ih => exact dlt_trans ih (dlt_nextDay (addDays d (i + k + 1)))

lemma addDays_ne (d : Date) {i j : Nat} (h : i < j) : addDays d i ≠ addDays d j := by
  intro he
  have hj : i + (j - i - 1) + 1 = j := by omega
  have hd := dlt_addDays d i (j - i - 1)
  rw [hj, ← he] at hd
  exact dlt_irrefl _ hd

/-! ## Date Index Map

`self.date_map` is a Python dict from normalized dates to column
indices; assignment overwrites an existing key or appends a new entry. -/

/-- `m[k] = v` on a dict represented as an association list. -/
def mapSet (m : List (Date × Nat)) (k : Date) (v : Nat) : List (Date × Nat) :=
  if m.any (fun p => p.1 == k) then m.map (fun p => if p.1 == k then (k, v) else p)
  else m ++ [(k, v)]

/-- Dict lookup (`k in m` / `m[k]`): the mapped column, if present. -/
def mapGet (m : List (Date × Nat)) (k : Date) : Option Nat :=
  (m.find? (fun p => p.1 == k)).map (fun p => p.2)

lemma mapGet_nil (k : Date) : mapGet [] k = none := rfl

lemma mapGet_cons (k1 : Date) (v1 : Nat) (m : List (Date × Nat)) (k : Date) :
    mapGet ((k1, v1) :: m) k = if k1 = k then some v1 else mapGet m k := by
  unfold mapGet
  by_cases h : k1 = k
  · subst h
    simp [List.find?]
  · have hb : (k1 == k) = false := by simp [h]
    simp [List.find?, hb, h]

lemma mapGet_append (m1 m2 : List (Date × Nat)) (k : Date) :
    mapGet (m1 ++ m2) k =
      match mapGet m1 k with
      | some v => some v
      | none => mapGet m2 k := by
  induction m1 with
  | nil => simp [mapGet_nil]
  | cons p m1 ih =>
      obtain ⟨k1, v1⟩ := p
      by_cases h : k1 = k <;> simp [mapGet_cons, h, ih]

lemma mapGet_eq_none (m : List (Date × Nat)) (k : Date)
    (h : ∀ p ∈ m, p.1 ≠ k) : mapGet m k = none := by
  induction m with
  | nil => rfl
  | cons p m ih =>
      obtain ⟨k1, v1⟩ := p
      rw [mapGet_cons, if_neg (h (k1, v1) (by simp))]
      exact ih (fun q hq => h q (by simp [hq]))

/-! ## Calendar header generation (`generate_calendar_headers`)

The loop body formats a display string `'%a %d/%m/%y'` for each day,
appends a single-width string cell to the header row, and records
`normalized date ↦ startCol + i` in the date map. -/

/-- Zero-padded two-digit field (`%d`, `%m`, `%y`). -/
def pad2 (n : Nat) : String := if n < 10 then "0" ++ toString n else toString n

/-- `%a` weekday abbreviations, Monday first. -/
def weekdayNames : List String := ["Mon", "Tue", "Wed", "Thu", "Fri", "Sat", "Sun"]

/-- Day of week via Zeller's congruence, 0 = Monday. -/
def weekdayIdx (d : Date) : Nat :=
  let y := if d.month < 3 then d.year - 1 else d.year
  let m := if d.month < 3 then d.month + 12 else d.month
  let K := y % 100
  let J := y / 100
  ((d.day + 13 * (m + 1) / 5 + K + K / 4 + J / 4 + 5 * J) % 7 + 5) % 7

/-- `current_date.strftime('%a %d/%m/%y')`. -/
def fmtHeader (d : Date) : String :=
  (weekdayNames.getD (weekdayIdx d) "") ++ " " ++ pad2 d.day ++ "/" ++ pad2 d.month ++
    "/" ++ pad2 (d.year % 100)

/-- One appended header cell: a single-width string cell whose
paragraph holds the formatted date. -/
def headerCell (d : Date) : Cell :=
  { repeated := none, attrs := [("office:value-type", "string")], paras := [fmtHeader d] }

/-- The cells appended by the header loop for `durationDays` days. -/
def genCells (startDate : Date) (n : Nat) : List Cell :=
  (List.range n).map (fun i => headerCell (addDays startDate i))

/-- The date-map entries recorded by the header loop:
`normalized (startDate + i) ↦ startCol + i`. -/
def genMap (dm : List (Date × Nat)) (startDate : Date) (startCol n : Nat) :
    List (Date × Nat) :=
  (List.range n).foldl (fun m i => mapSet m (addDays startDate i) (startCol + i)) dm

/-- `ODSHandler.generate_calendar_headers(start_date, duration_days)`:
returns unchanged when the sheet has no rows; otherwise reads the
header row's expanded width as the start column, appends one
single-width dated cell per day, and records each day in the date
map. -/
def generate_calendar_headers (rows : Sheet) (dm : List (Date × Nat))
    (startDate : Date) (durationDays : Nat) : Sheet × List (Date × Nat) :=
  match rows with
  | [] => (rows, dm)
  | headerRow :: rest =>
      ((headerRow ++ genCells startDate durationDays) :: rest,
        genMap dm startDate (expand_row headerRow).length durationDays)

lemma genMap_eq (startDate : Date) (w : Nat) : ∀ n,
    genMap [] startDate w n = (List.range n).map (fun i => (addDays startDate i, w + i))
  | 0 => rfl
  | n + 1 => by
      have fresh : ((List.range n).map
          (fun i => (addDays startDate i, w + i))).any
            (fun p => p.1 == addDays startDate n) = false := by
        rw [List.any_eq_false]
        intro p hp
        simp only [List.mem_map, List.mem_range] at hp
        obtain ⟨i, hi, rfl⟩ := hp
        simpa using addDays_ne startDate hi
      have ih := genMap_eq startDate w n
      unfold genMap at ih ⊢
      rw [List.range_succ, List.foldl_append, ih, List.foldl_cons, List.foldl_nil,
        List.map_append]
      unfold mapSet
      rw [fresh]
      simp

lemma mapGet_genMap (startDate : Date) (w : Nat) {n i : Nat} (h : i < n) :
    mapGet (genMap [] startDate w n) (addDays startDate i) = some (w + i) := by
  rw [genMap_eq]
  induction n with
  | zero => omega
  | succ n ih =>
      rw [List.range_succ, List.map_append, mapGet_append]
      rcases Nat.lt_or_ge i n with hlt | hge
      · rw [ih hlt]
      · have hi : i = n := by omega
        subst hi
        have hnone : mapGet ((List.range i).map
            (fun j => (addDays startDate j, w + j))) (addDays startDate i) = none := by
          apply mapGet_eq_none
          intro p hp
          simp only [List.mem_map, List.mem_range] at hp
          obtain ⟨j, hj, rfl⟩ := hp
          exact addDays_ne startDate hj
        rw [hnone]
        simp [mapGet_cons]

/-- C4: after `generate_calendar_headers(start, n)` on a sheet whose
header row has logical width `w` and with an empty date map (its state
at load), the date map sends `start + i` to column `w + i` for every
`i < n`, and lookup fails for every date outside the `n`-day range. -/
theorem claim4_date_map (header : Row) (rest : Sheet) (startDate : Date) (n : Nat) :
    (∀ i, i < n →
      mapGet ((generate_calendar_headers (header :: rest) [] startDate n).2)
          (addDays startDate i) = some ((expand_row header).length + i)) ∧
    (∀ d : Date, (∀ i, i < n → d ≠ addDays startDate i) →
      mapGet ((generate_calendar_headers (header :: rest) [] startDate n).2) d = none) := by
  constructor
  · intro i hi
    exact mapGet_genMap startDate (expand_row header).length hi
  · intro d hd
    show mapGet (genMap [] startDate (expand_row header).length n) d = none
    rw [genMap_eq]
    apply mapGet_eq_none
    intro p hp
    simp only [List.mem_map, List.mem_range] at hp
    obtain ⟨j, hj, rfl⟩ := hp
    exact fun he => hd j hj he.symm

/-- Witness for C4 on the spec scenario: a 3-day header from
2026-01-01 on an empty header row maps 2026-01-01/02/03 to columns
0/1/2 and misses 2025-12-31. -/
theorem claim4_date_map_witness :
    mapGet ((generate_calendar_headers [[]] [] ⟨2026, 1, 1⟩ 3).2) ⟨2026, 1, 1⟩ = some 0 ∧
    mapGet ((generate_calendar_headers [[]] [] ⟨2026, 1, 1⟩ 3).2) ⟨2026, 1, 2⟩ = some 1 ∧
    mapGet ((generate_calendar_headers [[]] [] ⟨2026, 1, 1⟩ 3).2) ⟨2026, 1, 3⟩ = some 2 ∧
    mapGet ((generate_calendar_headers [[]] [] ⟨2026, 1, 1⟩ 3).2) ⟨2025, 12, 31⟩ = none := by
  have h := claim4_date_map [] [] ⟨2026, 1, 1⟩ 3
  refine ⟨?_, ?_, ?_, h.2 ⟨2025, 12, 31⟩ (by decide)⟩
  · have h0 := h.1 0 (by decide)
    exact h0
  · have h1 := h.1 1 (by decide)
    exact h1
  · have h2 := h.1 2 (by decide)
    exact h2

lemma length_expand_row (r : Row) : (expand_row r).length = rowWidth r := by
  induction r with
  | nil => rfl
  | cons c r ih =>
      simp only [expand_row, rowWidth, List.map_cons, List.flatten_cons, List.length_append,
        List.length_replicate, List.sum_cons] at *
      omega

lemma length_expandStyles (r : Row) : (expandStyles r).length = rowWidth r := by
  induction r with
  | nil => rfl
  | cons c r ih =>
      simp only [expandStyles, rowWidth, List.map_cons, List.flatten_cons, List.length_append,
        List.length_replicate, List.sum_cons] at *
      omega

/-- C5: `generate_calendar_headers` only appends single-width cells
after the header row's current logical width: the per-column text and
style of every previously existing column are unchanged, and the other
rows of the sheet are untouched. -/
theorem claim5_header_frame (header : Row) (rest : Sheet) (dm : List (Date × Nat))
    (startDate : Date) (n : Nat) :
    (generate_calendar_headers (header :: rest) dm startDate n).1 =
      (header ++ genCells startDate n) :: rest ∧
    (∀ c ∈ genCells startDate n, cellCount c = 1) ∧
    (expand_row (header ++ genCells startDate n)).take (expand_row header).length =
      expand_row header ∧
    (expandStyles (header ++ genCells startDate n)).take (expand_row header).length =
      expandStyles header := by
  refine ⟨rfl, ?_, ?_, ?_⟩
  · intro c hc
    simp only [genCells, List.mem_map] at hc
    obtain ⟨i, _, rfl⟩ := hc
    rfl
  · have : expand_row (header ++ genCells startDate n) =
        expand_row header ++ expand_row (genCells startDate n) := by
      simp [expand_row]
    rw [this, List.take_left]
  · have hlen : (expand_row header).length = (expandStyles header).length := by
      rw [length_expand_row, length_expandStyles]
    have : expandStyles (header ++ genCells startDate n) =
        expandStyles header ++ expandStyles (genCells startDate n) := by
      simp [expandStyles]
    rw [this, hlen, List.take_left]

/-- Witness for C5: a header row holding one styled, texted cell keeps
its column after a 2-day header generation. -/
theorem claim5_header_frame_witness :
    (expand_row ([⟨none, [("table:style-name", "S")], ["Country"]⟩] ++
      genCells ⟨2026, 1, 1⟩ 2)).take 1 = ["Country"] := by
  have h := claim5_header_frame [⟨none, [("table:style-name", "S")], ["Country"]⟩]
    [] [] ⟨2026, 1, 1⟩ 2
  exact h.2.2.1

/-! ## Table Parser / Holiday Extractor (`OfficeHolidaysParser`)

The parser reacts to tag-open, tag-close and text events; we embed its
three handlers over an explicit event stream. -/

/-- Python `sub in s`: substring containment. -/
def strContains (s pat : String) : Bool :=
  (s.toList.tails).any (fun t => pat.toList.isPrefixOf t)

/-- The whitespace set of Python `str.strip()`. -/
def pyIsSpace (c : Char) : Bool :=
  c == ' ' || c == '\t' || c == '\n' || c == '\r' || c == '\x0b' || c == '\x0c'

/-- Python `s.strip()`: leading and trailing whitespace removed. -/
def pyStrip (s : String) : String :=
  ⟨((s.data.dropWhile pyIsSpace).reverse.dropWhile pyIsSpace).reverse⟩

/-- Python `s.lower()` (ASCII case folding suffices here). -/
def pyLower (s : String) : String := ⟨s.data.map Char.toLower⟩

/-- Splitting a character list at a separator (Python `str.split(sep)`
semantics: `n` separators produce `n + 1` groups). -/
def splitList (sep : Char) : List Char → List Char → List (List Char)
  | [], acc => [acc.reverse]
  | c :: cs, acc =>
      if c == sep then acc.reverse :: splitList sep cs []
      else splitList sep cs (c :: acc)

/-- A digit group's numeric value, when non-empty and all digits. -/
def digitGroup? (cs : List Char) : Option Nat :=
  if cs ≠ [] ∧ cs.all Char.isDigit then
    some (cs.foldl (fun n c => n * 10 + (c.toNat - 48)) 0)
  else none

/-- `datetime.strptime(s, '%Y-%m-%d')`: three dash-separated digit
groups (up to 4/2/2 digits), month and day validated against the
Gregorian calendar, year at least 1. -/
def strptime (s : String) : Option Date :=
  match splitList '-' s.data [] with
  | [ys, ms, ds] =>
      if ys.length ≤ 4 ∧ ms.length ≤ 2 ∧ ds.length ≤ 2 then
        match digitGroup? ys, digitGroup? ms, digitGroup? ds with
        | some y, some m, some d =>
            if 1 ≤ y ∧ 1 ≤ m ∧ m ≤ 12 ∧ 1 ≤ d ∧ d ≤ daysInMonth y m then
              some ⟨y, m, d⟩
            else none
        | _, _, _ => none
      else none
  | _ => none

/-- The parser's mutable fields. -/
structure PState where
  in_table : Bool
  in_row : Bool
  current_cell_idx : Nat
  holidays : List (Date × String × Bool)
  temp_date : Option String
  temp_name : Option String
  temp_type : Option String
  recording_name : Bool
  recording_type : Bool
  current_name_text : String
  current_type_text : String
  deriving Repr, DecidableEq

/-- `OfficeHolidaysParser.__init__`. -/
def initState : PState :=
  { in_table := false, in_row := false, current_cell_idx := 0, holidays := [],
    temp_date := none, temp_name := none, temp_type := none,
    recording_name := false, recording_type := false,
    current_name_text := "", current_type_text := "" }

/-- `OfficeHolidaysParser.handle_starttag`. -/
def handle_starttag (st : PState) (tag : String) (attrs : List (String × String)) :
    PState :=
  let cls := (dget attrs "class").getD ""
  let st := if tag == "table" && strContains cls "country-table" then
      { st with in_table := true }
    else st
  let st := if st.in_table && tag == "tr" then
      { st with
        in_row := true, current_cell_idx := 0, temp_date := none,
        temp_name := none, temp_type := none, current_type_text := "" }
    else st
  let st := if st.in_row && tag == "td" then
      let st := { st with current_cell_idx := st.current_cell_idx + 1 }
      if st.current_cell_idx == 4 then
        { st with recording_type := true, current_type_text := "" }
      else st
    else st
  let st := if st.in_row && tag == "time" then { st with temp_date := dget attrs "datetime" }
    else st
  if st.in_row && tag == "a" && strContains cls "country-listing" then
    { st with recording_name := true, current_name_text := "" }
  else st

/-- `OfficeHolidaysParser.handle_endtag`. -/
def handle_endtag (st : PState) (tag : String) : PState :=
  let st := if tag == "table" then { st with in_table := false } else st
  let st := if tag == "td" then
      if st.recording_type then
        { st with recording_type := false, temp_type := some (pyStrip st.current_type_text) }
      else st
    else st
  let st := if tag == "tr" then
      let st := { st with in_row := false }
      if st.temp_date.getD "" != "" && st.current_name_text != "" then
        match strptime (st.temp_date.getD "") with
        | some dt =>
            let type_lower := pyLower (st.temp_type.getD "")
            let is_regional :=
              strContains type_lower "regional" || strContains type_lower "local"
            { st with holidays :=
                st.holidays ++ [(dt, pyStrip st.current_name_text, !is_regional)] }
        | none => st
      else st
    else st
  if tag == "a" then { st with recording_name := false } else st

/-- `OfficeHolidaysParser.handle_data`. -/
def handle_data (st : PState) (s : String) : PState :=
  let st := if st.recording_name then
      { st with current_name_text := st.current_name_text ++ s }
    else st
  if st.recording_type then { st with current_type_text := st.current_type_text ++ s }
  else st

/-- One markup event, as the underlying streaming parser delivers it. -/
inductive Token where
  | startTag (tag : String) (attrs : List (String × String))
  | endTag (tag : String)
  | textData (s : String)
  deriving Repr, DecidableEq

/-- Dispatch of one event to the matching handler. -/
def feedToken (st : PState) (t : Token) : PState :=
  match t with
  | .startTag tag attrs => handle_starttag st tag attrs
  | .endTag tag => handle_endtag st tag
  | .textData s => handle_data st s

/-- `parser.feed(html)` over an event stream, from a fresh parser. -/
def feed (toks : List Token) : PState := toks.foldl feedToken initState

lemma strptime_empty : strptime "" = none := rfl

lemma strptime_ne_empty {s : String} {dt : Date} (h : strptime s = some dt) : s ≠ "" := by
  intro he
  subst he
  rw [strptime_empty] at h
  exact Option.noConfusion h

/-- C6: when a row element closes while a pending date that parses as
ISO `YYYY-MM-DD` and a name whose trimmed text is non-empty are
accumulated, exactly one holiday record is appended, holding the
parsed date, the trimmed name, and is-national defined as the pending
type text (lower-cased) containing neither "regional" nor "local". -/
theorem claim6_row_emit (st : PState) (ds : String) (dt : Date)
    (hd : st.temp_date = some ds)
    (hp : strptime ds = some dt)
    (hn : pyStrip st.current_name_text ≠ "") :
    (handle_endtag st "tr").holidays =
      st.holidays ++ [(dt, pyStrip st.current_name_text,
        !(strContains (pyLower (st.temp_type.getD "")) "regional" ||
          strContains (pyLower (st.temp_type.getD "")) "local"))] := by
  have hds : ds ≠ "" := strptime_ne_empty hp
  have hname : st.current_name_text ≠ "" := by
    intro he
    rw [he] at hn
    exact hn rfl
  unfold handle_endtag
  simp [hd, hp, hds, hname]

/-- Witness for C6 on the spec scenario: a row state holding date
2026-03-20, type text "Regional Holiday" and name "Local Fair" emits
the record (2026-03-20, "Local Fair", non-national). -/
theorem claim6_row_emit_witness :
    (handle_endtag
      { in_table := true, in_row := true, current_cell_idx := 4, holidays := [],
        temp_date := some "2026-03-20", temp_name := none,
        temp_type := some "Regional Holiday", recording_name := false,
        recording_type := false, current_name_text := "Local Fair",
        current_type_text := "Regional Holiday" } "tr").holidays =
      [(⟨2026, 3, 20⟩, "Local Fair", false)] := by
  have h := claim6_row_emit
    { in_table := true, in_row := true, current_cell_idx := 4, holidays := [],
      temp_date := some "2026-03-20", temp_name := none,
      temp_type := some "Regional Holiday", recording_name := false,
      recording_type := false, current_name_text := "Local Fair",
      current_type_text := "Regional Holiday" } "2026-03-20" ⟨2026, 3, 20⟩
    rfl (by decide) (by decide)
  rw [h]
  decide

/-- C7: the claim asserts that entering a row resets every per-row
accumulator and that a row lacking a name emits nothing.  The code
resets `temp_date`, `temp_name` and the type buffer on row entry but
not the name buffer, and the emit check reads the name buffer: on this
stream the first row stores the name "Foo" but has no date (so emits
nothing), and the second row carries only a date and no name, yet one
record with the stale name "Foo" is emitted for it. -/
theorem claim7_stale_name_leak :
    feed [Token.startTag "table" [("class", "country-table")],
      Token.startTag "tr" [],
      Token.startTag "a" [("class", "country-listing")],
      Token.textData "Foo",
      Token.endTag "a",
      Token.endTag "tr",
      Token.startTag "tr" [],
      Token.startTag "time" [("datetime", "2026-01-02")],
      Token.endTag "tr",
      Token.endTag "table"] =
    { in_table := false, in_row := false, current_cell_idx := 0,
      holidays := [(⟨2026, 1, 2⟩, "Foo", true)],
      temp_date := some "2026-01-02", temp_name := none, temp_type := none,
      recording_name := false, recording_type := false,
      current_name_text := "Foo", current_type_text := "" } := by
  rfl

/-! ## Style registry (`ODSHandler._create_style`)

`office:automatic-styles` may be absent (then it is created); each
`style:style` child carries a name, the fixed family and parent, a
background color and an optional font size. -/

structure StyleDef where
  name : String
  family : String
  parentStyle : String
  bgColor : String
  fontSize : Option String
  deriving Repr, DecidableEq

/-- `ODSHandler._create_style(name, bg_color, font_size)`: finds the
`office:automatic-styles` section (creating it when absent), returns
the name unchanged when a style of that name already exists, and
otherwise appends a new table-cell style with the given background
color and optional font size.  Returns the style name and the new
registry. -/
def _create_style (autoStyles : Option (List StyleDef)) (name bgColor : String)
    (fontSize : Option String) : String × Option (List StyleDef) :=
  let styles := autoStyles.getD []
  if styles.any (fun s => s.name == name) then (name, some styles)
  else (name, some (styles ++ [⟨name, "table-cell", "Default", bgColor, fontSize⟩]))

/-- C8: calling `_create_style` twice with the same name returns that
name both times, the second call changes nothing, and a registry that
did not already contain the name ends up with exactly one style
definition of that name. -/
theorem claim8_style_idempotent (autoStyles : Option (List StyleDef))
    (name bg1 bg2 : String) (fs1 fs2 : Option String)
    (hfresh : ∀ s ∈ autoStyles.getD [], s.name ≠ name) :
    (_create_style autoStyles name bg1 fs1).1 = name ∧
    (_create_style ((_create_style autoStyles name bg1 fs1).2) name bg2 fs2).1 = name ∧
    (_create_style ((_create_style autoStyles name bg1 fs1).2) name bg2 fs2).2 =
      (_create_style autoStyles name bg1 fs1).2 ∧
    (((_create_style autoStyles name bg1 fs1).2.getD []).countP
        (fun s => s.name == name)) = 1 := by
  have hany : ((autoStyles.getD []).any (fun s => s.name == name)) = false := by
    rw [List.any_eq_false]
    intro s hs
    simpa using hfresh s hs
  have hcount : ((autoStyles.getD []).countP (fun s => s.name == name)) = 0 := by
    rw [List.countP_eq_zero]
    intro s hs
    simpa using hfresh s hs
  unfold _create_style
  simp [hany, hcount, List.any_append, List.countP_append, List.countP_cons]

/-- Witness for C8: creating "AmberHoliday" twice in an absent
registry yields one definition and the same returned name. -/
theorem claim8_style_idempotent_witness :
    (_create_style none "AmberHoliday" "#ffbf00" (some "6pt")).1 = "AmberHoliday" ∧
    (_create_style ((_create_style none "AmberHoliday" "#ffbf00" (some "6pt")).2)
        "AmberHoliday" "#ffbf00" (some "6pt")).2 =
      (_create_style none "AmberHoliday" "#ffbf00" (some "6pt")).2 ∧
    (((_create_style none "AmberHoliday" "#ffbf00" (some "6pt")).2.getD []).countP
        (fun s => s.name == "AmberHoliday")) = 1 := by
  have h := claim8_style_idempotent none "AmberHoliday" "#ffbf00" "#ffbf00"
    (some "6pt") (some "6pt") (by intro s hs; simp at hs)
  exact ⟨h.1, h.2.2.1, h.2.2.2⟩

/-! ## Saving (`ODSHandler.save`)

The save path is I/O; it is embedded as a sequence of steps over an
abstract file-system state holding the destination archive and the
temporary archive being written.  `save` opens the temporary file,
writes each member of the original archive into it (replacing the
content member's bytes with the serialized tree), and finally moves
the temporary file over the destination (`shutil.move`, a rename on
the same directory). -/

abbrev Archive := List (String × String)

structure FS where
  dest : Archive
  temp : Option Archive
  deriving Repr, DecidableEq

/-- `zipfile.ZipFile(temp_zip, 'w')`: an empty temporary archive. -/
def openTemp (fs : FS) : FS := { fs with temp := some [] }

/-- `zout.writestr(item, content)`: appends one member to the
temporary archive. -/
def writeMember (n content : String) (fs : FS) : FS :=
  { fs with temp := fs.temp.map (fun a => a ++ [(n, content)]) }

/-- `shutil.move(temp_zip, self.filename)`: the temporary archive
replaces the destination in one step. -/
def moveTempToDest (fs : FS) : FS :=
  { dest := fs.temp.getD fs.dest, temp := none }

/-- The step sequence of `ODSHandler.save`: open the temporary
archive, write every member of the original (the content member
replaced by the serialized tree, every other member copied), then move
the temporary archive over the destination. -/
def saveSteps (orig : Archive) (serialized : String) : List (FS → FS) :=
  openTemp ::
    (orig.map (fun m =>
      writeMember m.1 (if m.1 = "content.xml" then serialized else m.2)) ++
      [moveTempToDest])

/-- Running a list of file-system steps in order. -/
def runSteps (steps : List (FS → FS)) (fs : FS) : FS :=
  steps.foldl (fun s f => f s) fs

/-- `ODSHandler.save()` from a file system whose destination holds the
original archive. -/
def save (orig : Archive) (serialized : String) : FS :=
  runSteps (saveSteps orig serialized) ⟨orig, none⟩

lemma runSteps_nil (fs : FS) : runSteps [] fs = fs := rfl

lemma runSteps_cons (g : FS → FS) (l : List (FS → FS)) (fs : FS) :
    runSteps (g :: l) fs = runSteps l (g fs) := rfl

lemma runSteps_append (l1 l2 : List (FS → FS)) (fs : FS) :
    runSteps (l1 ++ l2) fs = runSteps l2 (runSteps l1 fs) := by
  simp [runSteps, List.foldl_append]

lemma runSteps_writes (serialized : String) (l : Archive) (fs : FS) (acc : Archive)
    (h : fs.temp = some acc) :
    runSteps (l.map (fun m =>
        writeMember m.1 (if m.1 = "content.xml" then serialized else m.2))) fs =
      { dest := fs.dest,
        temp := some (acc ++ l.map (fun m =>
          (m.1, if m.1 = "content.xml" then serialized else m.2))) } := by
  induction l generalizing fs acc with
  | nil =>
      rw [List.map_nil, runSteps_nil]
      cases fs
      simp_all
  | cons m l ih =>
      rw [List.map_cons, runSteps_cons]
      rw [ih (writeMember m.1 (if m.1 = "content.xml" then serialized else m.2) fs)
        (acc ++ [(m.1, if m.1 = "content.xml" then serialized else m.2)])
        (by simp [writeMember, h])]
      simp [writeMember]

lemma dest_runSteps_of_preserving (l : List (FS → FS)) (fs : FS)
    (h : ∀ f ∈ l, ∀ s : FS, (f s).dest = s.dest) :
    (runSteps l fs).dest = fs.dest := by
  induction l generalizing fs with
  | nil => rfl
  | cons g l ih =>
      rw [runSteps_cons]
      rw [ih (g fs) (fun f hf s => h f (List.mem_cons_of_mem g hf) s)]
      exact h g (List.mem_cons_self g l) fs

/-- C9: `save` produces a destination archive whose content member is
replaced by the serialized tree and whose every other member is
identical to the original, and the destination is only touched by the
final move step: stopping after any proper prefix of the save steps
leaves the destination exactly as it was. -/
theorem claim9_save_atomic (orig : Archive) (serialized : String) :
    (save orig serialized).dest =
      orig.map (fun m => (m.1, if m.1 = "content.xml" then serialized else m.2)) ∧
    (∀ k, k < (saveSteps orig serialized).length →
      (runSteps ((saveSteps orig serialized).take k) ⟨orig, none⟩).dest = orig) := by
  constructor
  · unfold save saveSteps
    rw [runSteps_cons, runSteps_append]
    rw [show openTemp ⟨orig, none⟩ = ⟨orig, some []⟩ from rfl]
    rw [runSteps_writes serialized orig ⟨orig, some []⟩ [] rfl]
    rw [runSteps_cons, runSteps_nil]
    simp [moveTempToDest]
  · intro k hk
    have hsplit : saveSteps orig serialized =
        (openTemp :: orig.map (fun m =>
          writeMember m.1 (if m.1 = "content.xml" then serialized else m.2))) ++
          [moveTempToDest] := by
      simp [saveSteps]
    have hk2 : k ≤ (openTemp :: orig.map (fun m =>
        writeMember m.1 (if m.1 = "content.xml" then serialized else m.2))).length := by
      rw [hsplit] at hk
      simp only [List.length_append, List.length_cons, List.length_map,
        List.length_nil] at hk ⊢
      omega
    have htake : (saveSteps orig serialized).take k =
        (openTemp :: orig.map (fun m =>
          writeMember m.1 (if m.1 = "content.xml" then serialized else m.2))).take k := by
      rw [hsplit, List.take_append_of_le_length hk2]
    rw [htake]
    apply dest_runSteps_of_preserving
    intro f hf s
    have hmem := List.take_subset k _ hf
    rcases List.mem_cons.1 hmem with h1 | h3
    · rw [h1]
      rfl
    · obtain ⟨m, _, rfl⟩ := List.mem_map.1 h3
      rfl

/-- Witness for C9: a two-member archive keeps its non-content member
byte-for-byte, replaces content.xml, and shows an untouched
destination after the first three of its four steps. -/
theorem claim9_save_atomic_witness :
    (save [("content.xml", "old"), ("meta.xml", "meta")] "new").dest =
      [("content.xml", "new"), ("meta.xml", "meta")] ∧
    (runSteps ((saveSteps [("content.xml", "old"), ("meta.xml", "meta")] "new").take 3)
        ⟨[("content.xml", "old"), ("meta.xml", "meta")], none⟩).dest =
      [("content.xml", "old"), ("meta.xml", "meta")] := by
  have h := claim9_save_atomic [("content.xml", "old"), ("meta.xml", "meta")] "new"
  refine ⟨?_, h.2 3 (by decide)⟩
  rw [h.1]
  rfl

end BHScrubber
